import Mathlib

/-!
Verification of the optimization driver of `af/src/design.py` (ColabDesign).

The Python source is shallowly embedded: floating point arithmetic is
idealized over `ℚ` (or `ℝ` where square roots occur), tensors become
lists, and the external oracle (`self._grad_fn` / `self._fn`) and the
splittable JAX PRNG become parameters of the definitions. Python's `/`
on integers raises `ZeroDivisionError` when the denominator is zero;
this is modelled by a checked division returning `Option`.
-/

namespace ColabDesign

/-- Python float division `a / b`: `none` models a raised
`ZeroDivisionError` when the denominator is zero. -/
def pydiv (a b : ℚ) : Option ℚ :=
  if b = 0 then none else some (a / b)

/-! ### Annealing schedule (`design`, design.py lines 328-333)

For `i in range(iters)` the loop body executes
  `self.opt["temp"] = e_temp + (temp - e_temp) * (1-i/(iters-1)) ** 2`
  `self.opt["soft"] = soft + (e_soft - soft) * i/(iters-1)`
  `lr_scale = (1 - self.opt["soft"]) + (self.opt["soft"] * self.opt["temp"])`
`i` and `iters` are Python ints, so `i/(iters-1)` raises at `iters == 1`. -/

/-- Value of the temperature schedule when the division succeeds. -/
def tempVal (temp e_temp : ℚ) (iters i : ℕ) : ℚ :=
  e_temp + (temp - e_temp) * (1 - (i : ℚ) / ((iters : ℚ) - 1)) ^ 2

/-- Value of the softness schedule when the division succeeds. -/
def softVal (soft e_soft : ℚ) (iters i : ℕ) : ℚ :=
  soft + (e_soft - soft) * ((i : ℚ) / ((iters : ℚ) - 1))

/-- The learning-rate multiplier computed by the loop body from the
freshly stored `opt["soft"]` and `opt["temp"]`. -/
def lrVal (s t : ℚ) : ℚ := (1 - s) + s * t

/-- One iteration of the `design` loop body: the `(temp, soft, lr_scale)`
triple stored/passed at 0-indexed iteration `i`, with the embedded
Python division. `none` models the body raising `ZeroDivisionError`. -/
def schedStep (temp e_temp soft e_soft : ℚ) (iters i : ℕ) : Option (ℚ × ℚ × ℚ) :=
  match pydiv (i : ℚ) ((iters : ℚ) - 1) with
  | none => none
  | some q =>
    let t := e_temp + (temp - e_temp) * (1 - q) ^ 2
    let s := soft + (e_soft - soft) * q
    some (t, s, lrVal s t)

/-! ### Ensemble update (`_update`, design.py lines 232-288)

The oracle call `self._recycle(p, key)` on one replica is abstracted as a
function `f : ℕ → OracleOut A` from the replica index to its result
(`f` already closes over the step's random key, which both execution
paths receive identically). Sub-losses and gradients become key-indexed
lists of rationals; `jnp.mean` over the replica axis becomes
`pointwiseMean`. -/

/-- Mean of a list of rationals (`jnp.asarray(v).mean()`). -/
def meanQ (l : List ℚ) : ℚ := l.sum / (l.length : ℚ)

/-- Elementwise mean across a list of equally-shaped vectors
(`jax.tree_map(lambda *x: jnp.asarray(x).mean(0), *xs)`). -/
def pointwiseMean (gs : List (List ℚ)) : List ℚ :=
  (List.range (gs.headD []).length).map
    (fun i => meanQ (gs.map (fun g => g.getD i 0)))

/-- Result of one oracle replica call: scalar loss, key-indexed
sub-losses (`o["losses"]`), auxiliary outputs, flattened gradient. -/
structure OracleOut (A : Type) where
  loss : ℚ
  losses : List ℚ
  aux : A
  grad : List ℚ

/-- Aggregated result of `_update`: `self._loss`, `self._losses`,
`self._outs`, `self._grad`. -/
structure UpdateOut (A : Type) where
  loss : ℚ
  losses : List ℚ
  outs : A
  grad : List ℚ

/-- The parallel path of `_update` (design.py lines 254-265): one
batched call whose result carries a leading replica axis (modelled as
the list `sel.map f`), then `mean` over that axis for loss, sub-losses
and gradient, and replica 0 (`x[0]`) for the auxiliary outputs. -/
def parallelUpdate {A : Type} [Inhabited A] (f : ℕ → OracleOut A)
    (sel : List ℕ) : UpdateOut A :=
  let res := sel.map f
  { loss := meanQ (res.map OracleOut.loss)
    losses := pointwiseMean (res.map OracleOut.losses)
    outs := (res.map OracleOut.aux).headI
    grad := pointwiseMean (res.map OracleOut.grad) }

/-- The serial path of `_update` (design.py lines 270-288): loop over
the selected replicas in order, appending loss, aux and gradient to
buffers. Returns `(_loss, _losses, _outs, _grad)`. -/
def serialCollect {A : Type} (f : ℕ → OracleOut A) :
    List ℕ → List ℚ × List (List ℚ) × List A × List (List ℚ)
  | [] => ([], [], [], [])
  | n :: ns =>
    let o := f n
    let rest := serialCollect f ns
    (o.loss :: rest.1, o.losses :: rest.2.1, o.aux :: rest.2.2.1,
     o.grad :: rest.2.2.2)

/-- Serial aggregation: mean of the loss buffer, per-key mean of the
sub-loss buffer, elementwise mean of the gradient buffer, and
`_outs[0]` for the auxiliary outputs. -/
def serialUpdate {A : Type} [Inhabited A] (f : ℕ → OracleOut A)
    (sel : List ℕ) : UpdateOut A :=
  let c := serialCollect f sel
  { loss := meanQ c.1
    losses := pointwiseMean c.2.1
    outs := c.2.2.1.headI
    grad := pointwiseMean c.2.2.2 }

/-! ### Replica selection (`_update`, design.py lines 242-249)

`ns = jnp.arange(2)` with templates, `jnp.arange(5)` without; with
`model_sample` enabled and `m != len(ns)` the code draws
`jax.random.choice(_key, ns, (m,), replace=False)`, otherwise it takes
`ns[:m]`. The library guarantee of `choice` without replacement is
that it returns the first `m` entries of some key-determined
permutation of `ns`; the permutation is a parameter `draw`. -/

/-- The replica pool: indices 0..1 with templates, 0..4 otherwise. -/
def nsPool (use_templates : Bool) : List ℕ :=
  if use_templates then List.range 2 else List.range 5

/-- `self._model_num` as selected at design.py lines 244-249. -/
def modelNum (use_templates model_sample : Bool) (m : ℕ)
    (draw : List ℕ) : List ℕ :=
  let ns := nsPool use_templates
  if model_sample = true ∧ m ≠ ns.length then draw.take m else ns.take m

/-! ### Recycling (`_recycle`, design.py lines 188-230)

One oracle pass `self._grad_fn(params, model_params, self._inputs,
sub_key, opt)` is abstracted as `f : ℕ → σ → PassOut σ`, mapping the
pass's position in the key-split chain and the current recycle state
`self._inputs["prev"]` to loss, updated recycle state (`aux["prev"]`)
and gradient. -/

/-- Result of one oracle pass. -/
structure PassOut (σ : Type) where
  loss : ℚ
  prev : σ
  grad : List ℚ

/-- Result of `_recycle`: the returned loss and gradient plus the
`aux["recycles"]` field written at design.py line 226. -/
structure RecycleOut (σ : Type) where
  loss : ℚ
  prev : σ
  recyclesOut : ℕ
  grad : List ℚ

/-- The recycle state seen at the start of pass `r` when passes are
threaded (`self._inputs["prev"] = aux["prev"]`): pass `r+offset` runs
on the state left by pass `r-1+offset`. -/
def prevTrace {σ : Type} (f : ℕ → σ → PassOut σ) (offset : ℕ) (s : σ) :
    ℕ → σ
  | 0 => s
  | r + 1 => (f (offset + r) (prevTrace f offset s r)).prev

/-- The `average`-mode loop (design.py lines 204-213): `c + 1` passes
remain, starting at pass `r` on recycle state `s`; collects the
gradient of every pass in order and keeps the last pass's loss and
recycle state (the loop reassigns `loss, aux` each iteration). -/
def avgGo {σ : Type} (f : ℕ → σ → PassOut σ) :
    ℕ → σ → ℕ → List (List ℚ) × ℚ × σ
  | r, s, 0 => ((f r s).grad :: [], (f r s).loss, (f r s).prev)
  | r, s, c + 1 =>
    let o := f r s
    let rest := avgGo f (r + 1) o.prev c
    (o.grad :: rest.1, rest.2.1, rest.2.2)

/-- `_recycle` in `average` mode: run `recycles+1` passes (the loop
`for r in range(recycles+1)`), average the collected gradients
elementwise (`jax.tree_map(lambda *x: jnp.asarray(x).mean(0), *grad)`),
and set `aux["recycles"] = recycles`. -/
def recycleAverage {σ : Type} (f : ℕ → σ → PassOut σ) (recycles : ℕ)
    (s0 : σ) : RecycleOut σ :=
  let w := avgGo f 0 s0 recycles
  { loss := w.2.1
    prev := w.2.2
    recyclesOut := recycles
    grad := pointwiseMean w.1 }

/-- A concrete two-pass oracle: pass on recycle state `s` returns loss
`s` and recycle state `s + 2`. Its pass losses with `recycles = 1`
starting from state `0` are `0` then `2`. -/
def avgCounterOracle : ℕ → ℕ → PassOut ℕ :=
  fun _ s => { loss := (s : ℚ), prev := s + 2, grad := [0] }

/-! ### Recycling, `sample` mode (`_recycle`, design.py lines 216-226)

In the non-`average` branch the options are deep-copied
(`_opt = copy.deepcopy(opt)`); in `sample` mode a count is drawn by
`jax.random.randint(sub_key, [], 0, recycles+1)` (a value in
`[0, recycles]`, modelled as `draw % (recycles+1)` for a key-determined
`draw`), stored into the copy under the key `"recycle"`
(`recycles = _opt["recycle"] = ...`), the oracle is called with the
copy, and `aux["recycles"]` is set to the drawn value. -/

/-- The slice of the options dictionary relevant to recycling:
`opt["recycles"]` (configured maximum) and `opt["recycle"]` (per-step
sampled count, absent until `sample` mode writes it). -/
structure ROpt where
  recycles : ℕ
  recycle : Option ℕ

/-- `_recycle` in `sample` mode, for an oracle `f` receiving the option
record. Returns (oracle result, `aux["recycles"]` value, the session's
option record after the step). -/
def recycleSample {σ : Type} (f : ROpt → ℚ × σ × List ℚ) (opt : ROpt)
    (draw : ℕ) : (ℚ × σ × List ℚ) × ℕ × ROpt :=
  let sampled := draw % (opt.recycles + 1)
  let copt : ROpt := { opt with recycle := some sampled }
  (f copt, sampled, opt)

/-! ### Best checkpoint (`restart` line 132, `_save_results` lines 138-140)

`restart` without `keep_history` sets `self._best_loss, self._best_outs
= np.inf, None`; `_save_results` replaces them when `save_best` is set
and `self._loss < self._best_loss`. `np.inf` is modelled as `⊤` in
`WithTop ℚ`. -/

/-- The best-checkpoint slice of the session: `(self._best_loss,
self._best_outs)`. -/
structure BestState (O : Type) where
  bestLoss : WithTop ℚ
  bestOuts : Option O

/-- Best checkpoint as initialized by a `restart` that does not keep
history: `(np.inf, None)`. -/
def restartBest (O : Type) : BestState O :=
  { bestLoss := ⊤, bestOuts := none }

/-- The best-checkpoint update in `_save_results`:
`if save_best and self._loss < self._best_loss: ...`. -/
def saveBest {O : Type} (save_best : Bool) (loss : ℚ) (outs : O)
    (st : BestState O) : BestState O :=
  if save_best = true ∧ (loss : WithTop ℚ) < st.bestLoss then
    { bestLoss := (loss : WithTop ℚ), bestOuts := some outs }
  else st

/-- A run of best-saving steps observing the losses/outputs in `steps`
in order. -/
def runBest {O : Type} (steps : List (ℚ × O)) (st : BestState O) :
    BestState O :=
  steps.foldl (fun s p => saveBest true p.1 p.2 s) st

/-! ### Semigreedy acceptance (`design_semigreedy`, lines 408-417)

Each outer iteration evaluates `tries` mutated candidates, buffering
`{"outs":..., "loss":..., "losses":...}` per candidate, then accepts
`buff[np.argmin([x["loss"] for x in buff])]`. One candidate evaluation
(mutation + `_update(backprop=False)`) is abstracted as
`evalTry : ℕ → Cand O` from the try index (the mutation RNG draws are
keyed by the split order, hence by the try index). `np.argmin` returns
the first index attaining the minimum. -/

/-- One buffered candidate: `{"outs":..., "loss":..., "losses":...}`. -/
structure Cand (O : Type) where
  outs : O
  loss : ℚ
  losses : List ℚ

instance {O : Type} [Inhabited O] : Inhabited (Cand O) :=
  ⟨⟨default, 0, []⟩⟩

/-- Minimum value of a list of rationals (the value `np.argmin` points
at). -/
def listMinQ : List ℚ → ℚ
  | [] => 0
  | [a] => a
  | a :: b :: rest => min a (listMinQ (b :: rest))

/-- `np.argmin`: index of the first occurrence of the minimum. -/
def argminIdx (l : List ℚ) : ℕ := l.indexOf (listMinQ l)

/-- The candidate buffer of one outer iteration (`for _ in range(tries)`). -/
def semigreedyBuff {O : Type} (evalTry : ℕ → Cand O) (tries : ℕ) :
    List (Cand O) :=
  (List.range tries).map evalTry

/-- `buff[np.argmin([x["loss"] for x in buff])]`. -/
def acceptBest {O : Type} [Inhabited O] (buff : List (Cand O)) : Cand O :=
  buff.getD (argminIdx (buff.map Cand.loss)) default

/-- Concrete candidate evaluator for the C7 witness: try `n` has loss
`3 - n`. -/
def witnessEval : ℕ → Cand ℕ :=
  fun n => ⟨n, 3 - (n : ℚ), []⟩

/-! ### Gradient normalization (`_step`, design.py lines 301-304)

`gn = jnp.linalg.norm(g, axis=(-1,-2), keepdims=True)` computes one
Euclidean norm per sequence over the position and alphabet axes, and
`self._grad["seq"] *= lr_scale * jnp.sqrt(self._len)/(gn+1e-7)`
rescales each sequence's gradient by its own norm. A sequence's
gradient is modelled as its flattened `(position, alphabet)` entries,
and the full sequence-axis gradient as a list of such rows. -/

/-- Sum of squared entries of one sequence's gradient. -/
def sumSq (g : List ℝ) : ℝ := (g.map (fun x => x ^ 2)).sum

/-- `jnp.linalg.norm` over the position and alphabet axes of one
sequence. -/
noncomputable def gradNorm (g : List ℝ) : ℝ := Real.sqrt (sumSq g)

/-- The additive guard `1e-7`. -/
noncomputable def epsG : ℝ := 1 / 10 ^ 7

/-- The rescaling of one sequence's gradient:
`g * (lr_scale * sqrt(len) / (gn + 1e-7))`. -/
noncomputable def normalizeRow (lr : ℝ) (L : ℕ) (g : List ℝ) : List ℝ :=
  g.map (fun x => x * (lr * Real.sqrt L / (gradNorm g + epsG)))

/-- The full update of `self._grad["seq"]`: with `keepdims=True` the
per-sequence norms broadcast, so each sequence row is rescaled by its
own norm (the sequence axis is kept separate). -/
noncomputable def normalizeSeqGrad (lr : ℝ) (L : ℕ) (g : List (List ℝ)) :
    List (List ℝ) :=
  g.map (normalizeRow lr L)

/-! ### Restart and sequence initialization (`restart` lines 96-132,
`_init_seq` lines 31-94)

`restart` optionally folds the `weights`/`opt` arguments into the
session defaults (`set_defaults`), rebuilds `self.opt` from the
defaults unless `keep_history`, seeds the JAX PRNG from the explicit
seed (or from Python's global `random.randint` when no seed is given),
and calls `_init_seq`, which splits the key and builds the logits from
`0.01 * normal(_key, shape)` with optional gumbel/soft/wildtype/seq
transformations. JAX keys, tensors and the tensor operations are
abstract parameters (`InitOps`); the options dictionary is narrowed to
the one entry `_init_seq` reads (`opt["pos"]`), with `dict.update`
modelled as per-key overwrite (`applyPatch`). -/

/-- Abstract PRNG and tensor operations consumed by `restart` and
`_init_seq`. `randint` is Python's global `random.randint`, returning
a drawn value and the advanced global RNG state. -/
structure InitOps (κ τ : Type) where
  prngKey : ℕ → κ
  splitKey : κ → κ × κ
  normal : κ → τ
  gumbel : κ → τ
  smul : ℚ → τ → τ
  softmax : τ → τ
  add : τ → τ → τ
  setWt : τ → τ → Option (List ℕ) → τ
  randint : ℕ → ℕ × ℕ

/-- The slice of the options dictionary read by `_init_seq`. -/
structure OptRec where
  pos : List ℕ

/-- The `opt=...` argument of `restart`, per-key optional. -/
structure OptPatch where
  pos : Option (List ℕ)

/-- `dict.update`: keys present in the patch overwrite, others are
kept. -/
def applyPatch (d : OptRec) (p : Option OptPatch) : OptRec :=
  match p with
  | none => d
  | some q => { pos := q.pos.getD d.pos }

/-- Arguments of one `restart(...)` call. -/
structure RestartArgs (τ : Type) where
  seed : Option ℕ
  setDefaults : Bool
  keepHistory : Bool
  optPatch : Option OptPatch
  modeGumbel : Bool
  modeSoft : Bool
  modeWt : Bool
  seqArg : Option τ

/-- The session fields touched or read by `restart`/`_init_seq`. -/
structure Session (κ τ : Type) where
  key : κ
  seedStored : ℕ
  rng : ℕ
  defaultOpt : OptRec
  opt : OptRec
  params : τ
  wtTensor : τ
  protocolPartial : Bool

/-- `self._default_opt` after the `set_defaults` block. -/
def restartDefault {τ : Type} (a : RestartArgs τ) (d : OptRec) : OptRec :=
  if a.setDefaults then applyPatch d a.optPatch else d

/-- `self.opt` after restart: rebuilt from the defaults unless
`keep_history`, then updated with the `opt` argument. -/
def restartOpt {τ : Type} (a : RestartArgs τ) (d cur : OptRec) : OptRec :=
  applyPatch (if a.keepHistory then cur else restartDefault a d) a.optPatch

/-- The logits built by `_init_seq` from the split-off subkey:
`x = 0.01 * normal(_key, shape)`, replaced by `gumbel(_key)/2` in
gumbel mode, softened by `softmax(x * 2.0)` in soft mode, overwritten
by the wildtype one-hot (at `opt["pos"]` for the partial protocol) in
wildtype mode, and shifted by the `seq` argument when given. -/
def initX {κ τ : Type} (ops : InitOps κ τ) (a : RestartArgs τ) (wt : τ)
    (pp : Bool) (opt1 : OptRec) (seedv : ℕ) : τ :=
  let ks := ops.splitKey (ops.prngKey seedv)
  let x0 := ops.smul (1 / 100) (ops.normal ks.2)
  let x1 := if a.modeGumbel then ops.smul (1 / 2) (ops.gumbel ks.2) else x0
  let x2 := if a.modeSoft then ops.softmax (ops.smul 2 x1) else x1
  let x3 := if a.modeWt then ops.setWt x2 wt (if pp then some opt1.pos else none)
    else x2
  match a.seqArg with
  | some sq => ops.add x3 sq
  | none => x3

/-- One `restart(...)` call on the session state. -/
def restartModel {κ τ : Type} (ops : InitOps κ τ) (a : RestartArgs τ)
    (st : Session κ τ) : Session κ τ :=
  let dflt := restartDefault a st.defaultOpt
  let opt1 := restartOpt a st.defaultOpt st.opt
  let sr : ℕ × ℕ :=
    match a.seed with
    | some s => (s, st.rng)
    | none => ops.randint st.rng
  let ks := ops.splitKey (ops.prngKey sr.1)
  { key := ks.1
    seedStored := sr.1
    rng := sr.2
    defaultOpt := dflt
    opt := opt1
    params := initX ops a st.wtTensor st.protocolPartial opt1 sr.1
    wtTensor := st.wtTensor
    protocolPartial := st.protocolPartial }

/-- Concrete instantiation of the abstract PRNG/tensor operations for
the C9 witness (keys and tensors as numbers). -/
def witInitOps : InitOps ℕ ℚ where
  prngKey := fun s => s + 1
  splitKey := fun k => (2 * k, 2 * k + 1)
  normal := fun k => (k : ℚ)
  gumbel := fun k => (k : ℚ) + 10
  smul := fun q t => q * t
  softmax := fun t => t + 1000
  add := fun x y => x + y
  setWt := fun x w _ => x + w
  randint := fun r => (r + 17, r + 1)

/-- Concrete restart arguments (explicit seed 7) for the C9 witness. -/
def witArgs : RestartArgs ℚ where
  seed := some 7
  setDefaults := true
  keepHistory := false
  optPatch := some { pos := some [0, 2] }
  modeGumbel := false
  modeSoft := true
  modeWt := true
  seqArg := some 3

/-- Concrete starting session for the C9 witness. -/
def witSession : Session ℕ ℚ where
  key := 99
  seedStored := 0
  rng := 5
  defaultOpt := { pos := [1] }
  opt := { pos := [] }
  params := 0
  wtTensor := 8
  protocolPartial := true

/-! ### Theorems -/

theorem schedStep_eq_some (temp e_temp soft e_soft : ℚ) (iters i : ℕ)
    (h : 1 < iters) :
    schedStep temp e_temp soft e_soft iters i =
      some (tempVal temp e_temp iters i, softVal soft e_soft iters i,
            lrVal (softVal soft e_soft iters i) (tempVal temp e_temp iters i)) := by
  have hne : ((iters : ℚ) - 1) ≠ 0 := by
    have : (1 : ℚ) < (iters : ℚ) := by exact_mod_cast h
    intro hcontra
    nlinarith
  simp [schedStep, pydiv, hne, tempVal, softVal]

theorem tempVal_zero (temp e_temp : ℚ) (iters : ℕ) :
    tempVal temp e_temp iters 0 = temp := by
  simp [tempVal]

theorem tempVal_last (temp e_temp : ℚ) (iters : ℕ) (h : 1 < iters) :
    tempVal temp e_temp iters (iters - 1) = e_temp := by
  have h1 : (1 : ℕ) ≤ iters := le_of_lt h
  have hne : ((iters : ℚ) - 1) ≠ 0 := by
    have : (1 : ℚ) < (iters : ℚ) := by exact_mod_cast h
    intro hcontra
    nlinarith
  have hcast : ((iters - 1 : ℕ) : ℚ) = (iters : ℚ) - 1 := by
    push_cast [Nat.cast_sub h1]
    ring
  simp [tempVal, hcast, div_self hne]

theorem softVal_zero (soft e_soft : ℚ) (iters : ℕ) :
    softVal soft e_soft iters 0 = soft := by
  simp [softVal]

theorem softVal_last (soft e_soft : ℚ) (iters : ℕ) (h : 1 < iters) :
    softVal soft e_soft iters (iters - 1) = e_soft := by
  have h1 : (1 : ℕ) ≤ iters := le_of_lt h
  have hne : ((iters : ℚ) - 1) ≠ 0 := by
    have : (1 : ℚ) < (iters : ℚ) := by exact_mod_cast h
    intro hcontra
    nlinarith
  have hcast : ((iters - 1 : ℕ) : ℚ) = (iters : ℚ) - 1 := by
    push_cast [Nat.cast_sub h1]
    ring
  simp [softVal, hcast, div_self hne]

theorem softVal_monotone (soft e_soft : ℚ) (iters : ℕ) (h : 1 < iters)
    {i j : ℕ} (hij : i ≤ j) :
    (soft ≤ e_soft → softVal soft e_soft iters i ≤ softVal soft e_soft iters j) ∧
    (e_soft ≤ soft → softVal soft e_soft iters j ≤ softVal soft e_soft iters i) := by
  have hpos : (0 : ℚ) < (iters : ℚ) - 1 := by
    have : (1 : ℚ) < (iters : ℚ) := by exact_mod_cast h
    linarith
  have hfrac : (i : ℚ) / ((iters : ℚ) - 1) ≤ (j : ℚ) / ((iters : ℚ) - 1) := by
    apply div_le_div_of_nonneg_right ?_ hpos.le
    exact_mod_cast hij
  constructor
  · intro hse
    unfold softVal
    nlinarith
  · intro hes
    unfold softVal
    nlinarith

/-- C1: for every design stage with `iters > 1`, at 0-indexed iteration
`i` the loop body succeeds and sets `temp` to
`e_temp + (temp_start - e_temp) * (1 - i/(iters-1))^2`, `soft` to
`soft_start + (e_soft - soft_start) * i/(iters-1)`, and passes learning
rate multiplier `(1 - soft(i)) + soft(i) * temp(i)`; moreover
`temp(0) = temp_start`, `temp(iters-1) = e_temp`, `soft(0) = soft_start`,
`soft(iters-1) = e_soft`, and `soft` is monotonic between its endpoints
(non-decreasing when `soft_start ≤ e_soft`, non-increasing otherwise). -/
theorem design_schedule_spec (temp e_temp soft e_soft : ℚ) (iters : ℕ)
    (h : 1 < iters) :
    (∀ i, schedStep temp e_temp soft e_soft iters i =
        some (tempVal temp e_temp iters i, softVal soft e_soft iters i,
              lrVal (softVal soft e_soft iters i) (tempVal temp e_temp iters i))) ∧
    tempVal temp e_temp iters 0 = temp ∧
    tempVal temp e_temp iters (iters - 1) = e_temp ∧
    softVal soft e_soft iters 0 = soft ∧
    softVal soft e_soft iters (iters - 1) = e_soft ∧
    (∀ i j, i ≤ j → j ≤ iters - 1 →
      (soft ≤ e_soft → softVal soft e_soft iters i ≤ softVal soft e_soft iters j) ∧
      (e_soft ≤ soft → softVal soft e_soft iters j ≤ softVal soft e_soft iters i)) := by
  refine ⟨fun i => schedStep_eq_some temp e_temp soft e_soft iters i h,
    tempVal_zero temp e_temp iters, tempVal_last temp e_temp iters h,
    softVal_zero soft e_soft iters, softVal_last soft e_soft iters h,
    fun i j hij _ => softVal_monotone soft e_soft iters h hij⟩

/-- Witness for C1 at `iters = 4`, `temp_start = 1`, `e_temp = 1`,
`soft_start = 0`, `e_soft = 1` (spec scenario A). -/
theorem design_schedule_spec_witness :
    (1 : ℕ) < 4 ∧
    ((∀ i, schedStep 1 1 0 1 4 i =
        some (tempVal 1 1 4 i, softVal 0 1 4 i,
              lrVal (softVal 0 1 4 i) (tempVal 1 1 4 i))) ∧
    tempVal 1 1 4 0 = 1 ∧
    tempVal 1 1 4 (4 - 1) = 1 ∧
    softVal 0 1 4 0 = 0 ∧
    softVal 0 1 4 (4 - 1) = 1 ∧
    (∀ i j, i ≤ j → j ≤ 4 - 1 →
      ((0 : ℚ) ≤ 1 → softVal 0 1 4 i ≤ softVal 0 1 4 j) ∧
      ((1 : ℚ) ≤ 0 → softVal 0 1 4 j ≤ softVal 0 1 4 i))) :=
  ⟨by decide, design_schedule_spec 1 1 0 1 4 (by decide)⟩

/-- C5 counterexample: at `iters == 1`, iteration `i = 0`, the schedule
computation does NOT produce a value (NaN or otherwise): the integer
division `0/0` fails, i.e. Python raises `ZeroDivisionError`, contrary
to the claim that the call does not fail with a raised exception. -/
theorem design_iters_one_not_a_value :
    (schedStep 1 (1/2) 0 1 1 0).isSome = false := by
  norm_num [schedStep, pydiv]

/-- C5 amended: at `iters == 1` the division by zero in the annealing
schedule is unguarded, and since `i` and `iters-1` are Python integers,
`i/(iters-1)` at `i = 0` is `0/0`, which raises `ZeroDivisionError`:
the call fails with an exception (modelled by `none`) rather than
producing an undefined/NaN schedule value. -/
theorem design_iters_one_raises (temp e_temp soft e_soft : ℚ) :
    schedStep temp e_temp soft e_soft 1 0 = none := by
  simp [schedStep, pydiv]


theorem serialCollect_eq {A : Type} (f : ℕ → OracleOut A) (sel : List ℕ) :
    serialCollect f sel =
      (sel.map (fun n => (f n).loss), sel.map (fun n => (f n).losses),
       sel.map (fun n => (f n).aux), sel.map (fun n => (f n).grad)) := by
  induction sel with
  | nil => rfl
  | cons n ns ih => simp [serialCollect, ih]

/-- C2: given the same random draw (both paths close over the same key
inside `f`) and the same selected replica indices `sel`, the serial and
parallel execution paths of `_update` produce equal scalar loss, equal
sub-loss mapping, equal gradient, and equal auxiliary outputs. -/
theorem serial_parallel_equiv {A : Type} [Inhabited A]
    (f : ℕ → OracleOut A) (sel : List ℕ) :
    serialUpdate f sel = parallelUpdate f sel := by
  simp [serialUpdate, parallelUpdate, serialCollect_eq, List.map_map]
  exact ⟨rfl, rfl, rfl, rfl⟩


/-- C8: with ensemble size `m` at most the pool size and `draw` a
permutation of the pool, the selected replica indices are exactly the
first `m` pool indices `0..m-1` when sampling is disabled, and are `m`
distinct indices from the pool whenever sampling is enabled. -/
theorem modelNum_spec (use_templates model_sample : Bool) (m : ℕ)
    (draw : List ℕ) (hm : m ≤ (nsPool use_templates).length)
    (hperm : draw.Perm (nsPool use_templates)) :
    (model_sample = false →
      modelNum use_templates model_sample m draw = List.range m) ∧
    (model_sample = true →
      (modelNum use_templates model_sample m draw).length = m ∧
      (modelNum use_templates model_sample m draw).Nodup ∧
      ∀ x ∈ modelNum use_templates model_sample m draw,
        x ∈ nsPool use_templates) := by
  have hrange : ∃ k, nsPool use_templates = List.range k := by
    cases use_templates <;> exact ⟨_, rfl⟩
  obtain ⟨k, hk⟩ := hrange
  have htake : (nsPool use_templates).take m = List.range m := by
    rw [hk, List.take_range]
    rw [hk] at hm
    simp at hm
    simp [Nat.min_eq_left hm]
  constructor
  · intro hms
    simp [modelNum, hms, htake]
  · intro hms
    by_cases hml : m = (nsPool use_templates).length
    · have : modelNum use_templates model_sample m draw =
          (nsPool use_templates).take m := by
        simp [modelNum, hml]
      rw [this, htake]
      refine ⟨by simp, List.nodup_range _, ?_⟩
      intro x hx
      rw [List.mem_range] at hx
      rw [hk]
      rw [hk] at hml
      simp at hml
      subst hml
      simpa using hx
    · have hsel : modelNum use_templates model_sample m draw = draw.take m := by
        simp [modelNum, hms, hml]
      have hlen : draw.length = (nsPool use_templates).length := hperm.length_eq
      have hnodup : draw.Nodup := by
        refine hperm.nodup_iff.mpr ?_
        rw [hk]; exact List.nodup_range _
      refine ⟨?_, ?_, ?_⟩
      · rw [hsel, List.length_take, hlen]
        exact Nat.min_eq_left hm
      · rw [hsel]
        exact hnodup.sublist (List.take_sublist m draw)
      · intro x hx
        rw [hsel] at hx
        have : x ∈ draw := List.mem_of_mem_take hx
        exact hperm.mem_iff.mp this

/-- Witness for C8: no templates (pool `0..4`), sampling enabled,
ensemble size 3, a concrete permutation draw. -/
theorem modelNum_spec_witness :
    (3 ≤ (nsPool false).length ∧ List.Perm [4, 2, 0, 1, 3] (nsPool false)) ∧
    ((true = false → modelNum false true 3 [4, 2, 0, 1, 3] = List.range 3) ∧
     (true = true →
       (modelNum false true 3 [4, 2, 0, 1, 3]).length = 3 ∧
       (modelNum false true 3 [4, 2, 0, 1, 3]).Nodup ∧
       ∀ x ∈ modelNum false true 3 [4, 2, 0, 1, 3], x ∈ nsPool false)) := by
  exact ⟨⟨by decide, by decide⟩,
    modelNum_spec false true 3 [4, 2, 0, 1, 3] (by decide) (by decide)⟩


theorem prevTrace_shift {σ : Type} (f : ℕ → σ → PassOut σ) (r : ℕ) (s : σ)
    (j : ℕ) :
    prevTrace f (r + 1) (f r s).prev j = prevTrace f r s (j + 1) := by
  induction j with
  | zero => simp [prevTrace]
  | succ j ih =>
    show (f (r + 1 + j) (prevTrace f (r + 1) (f r s).prev j)).prev = _
    rw [ih]
    show _ = (f (r + (j + 1)) (prevTrace f r s (j + 1))).prev
    have hidx : r + 1 + j = r + (j + 1) := by omega
    rw [hidx]

theorem avgGo_eq {σ : Type} (f : ℕ → σ → PassOut σ) (c : ℕ) :
    ∀ (r : ℕ) (s : σ),
    avgGo f r s c =
      ((List.range (c + 1)).map (fun j => (f (r + j) (prevTrace f r s j)).grad),
       (f (r + c) (prevTrace f r s c)).loss,
       (f (r + c) (prevTrace f r s c)).prev) := by
  induction c with
  | zero => intro r s; simp [avgGo, prevTrace, List.range_succ]
  | succ c ih =>
    intro r s
    simp only [avgGo]
    rw [ih (r + 1) (f r s).prev]
    have hidx : ∀ j : ℕ, r + 1 + j = r + (j + 1) := fun j => by omega
    have harg : ∀ j : ℕ,
        (f (r + 1 + j) (prevTrace f (r + 1) (f r s).prev j)).grad =
        (f (r + (j + 1)) (prevTrace f r s (j + 1))).grad := by
      intro j
      rw [prevTrace_shift, hidx]
    have hrange : (List.range (c + 1 + 1)).map
        (fun j => (f (r + j) (prevTrace f r s j)).grad) =
        (f r s).grad :: (List.range (c + 1)).map
          (fun j => (f (r + (j + 1)) (prevTrace f r s (j + 1))).grad) := by
      rw [List.range_succ_eq_map, List.map_cons, List.map_map]
      simp [prevTrace, Function.comp]
    refine Prod.ext ?_ (Prod.ext ?_ ?_)
    · show (f r s).grad :: (List.range (c + 1)).map
          (fun j => (f (r + 1 + j) (prevTrace f (r + 1) (f r s).prev j)).grad) =
        (List.range (c + 1 + 1)).map (fun j => (f (r + j) (prevTrace f r s j)).grad)
      rw [hrange]
      congr 1
      exact List.map_congr_left (fun j _ => harg j)
    · show (f (r + 1 + c) (prevTrace f (r + 1) (f r s).prev c)).loss =
        (f (r + (c + 1)) (prevTrace f r s (c + 1))).loss
      rw [prevTrace_shift, hidx]
    · show (f (r + 1 + c) (prevTrace f (r + 1) (f r s).prev c)).prev =
        (f (r + (c + 1)) (prevTrace f r s (c + 1))).prev
      rw [prevTrace_shift, hidx]

/-- C4 (amended): in `average` recycle mode a step runs exactly
`recycles+1` oracle passes, each pass fed the previous pass's returned
internal recycle state; the step's gradient equals the elementwise mean
of the per-pass gradients; the returned loss (and auxiliary outputs)
come from the FINAL pass, not from a mean across passes; and the
auxiliary output reports `recycles` in its `recycles` field. -/
theorem recycle_average_spec {σ : Type} (f : ℕ → σ → PassOut σ)
    (recycles : ℕ) (s0 : σ) :
    ((List.range (recycles + 1)).map
        (fun r => (f r (prevTrace f 0 s0 r)).grad)).length = recycles + 1 ∧
    (recycleAverage f recycles s0).grad =
      pointwiseMean ((List.range (recycles + 1)).map
        (fun r => (f r (prevTrace f 0 s0 r)).grad)) ∧
    (recycleAverage f recycles s0).loss =
      (f recycles (prevTrace f 0 s0 recycles)).loss ∧
    (recycleAverage f recycles s0).prev =
      (f recycles (prevTrace f 0 s0 recycles)).prev ∧
    (recycleAverage f recycles s0).recyclesOut = recycles := by
  have h := avgGo_eq f recycles 0 s0
  refine ⟨by simp, ?_, ?_, ?_, rfl⟩
  · show pointwiseMean (avgGo f 0 s0 recycles).1 = _
    rw [h]
    simp
  · show (avgGo f 0 s0 recycles).2.1 = _
    rw [h]
    simp
  · show (avgGo f 0 s0 recycles).2.2 = _
    rw [h]
    simp

/-- C4 counterexample: in `average` mode the returned loss is NOT the
structural mean of the per-pass losses — with pass losses `0` and `2`
the code returns `2` (the final pass), not the mean `1`. -/
theorem recycle_average_loss_not_mean :
    (recycleAverage avgCounterOracle 1 0).loss ≠
      meanQ ((List.range (1 + 1)).map
        (fun r => (avgCounterOracle r (prevTrace avgCounterOracle 0 0 r)).loss)) := by
  norm_num [recycleAverage, avgGo, avgCounterOracle, meanQ, prevTrace,
    List.range_succ]


/-- C10: in `sample` recycle mode the options are deep-copied before
sampling: the session's stored options are left unchanged by the step;
within the copy the sampled count is written under `recycle` while the
copy's `recycles` entry passed to the oracle retains the originally
configured maximum; and the sampled value is what the auxiliary output
reports under `recycles`. -/
theorem recycle_sample_frame {σ : Type} (f : ROpt → ℚ × σ × List ℚ)
    (opt : ROpt) (draw : ℕ) :
    (recycleSample f opt draw).2.2 = opt ∧
    (recycleSample f opt draw).1 =
      f { recycles := opt.recycles, recycle := some (draw % (opt.recycles + 1)) } ∧
    (recycleSample f opt draw).2.1 = draw % (opt.recycles + 1) :=
  ⟨rfl, rfl, rfl⟩


theorem runBest_loss {O : Type} (steps : List (ℚ × O)) :
    ∀ st : BestState O,
    (runBest steps st).bestLoss = min st.bestLoss (steps.map Prod.fst).minimum := by
  induction steps with
  | nil =>
    intro st
    simp [runBest, List.minimum_nil]
  | cons p rest ih =>
    intro st
    show (runBest rest (saveBest true p.1 p.2 st)).bestLoss = _
    rw [ih]
    rw [List.map_cons, List.minimum_cons]
    by_cases h : (p.1 : WithTop ℚ) < st.bestLoss
    · have hs : (saveBest true p.1 p.2 st).bestLoss = (p.1 : WithTop ℚ) := by
        simp [saveBest, h]
      rw [hs, ← min_assoc, min_eq_right h.le]
    · have hs : saveBest true p.1 p.2 st = st := by
        simp [saveBest, h]
      rw [hs, ← min_assoc, min_eq_left (not_lt.mp h)]

theorem minimum_of_chain (l : ℚ) (ls : List ℚ)
    (h : List.Chain' (· ≤ ·) (l :: ls)) :
    (l :: ls).minimum = (l : WithTop ℚ) := by
  rw [List.minimum_eq_coe_iff]
  have hp : List.Pairwise (· ≤ ·) (l :: ls) :=
    (List.chain'_iff_pairwise).mp h
  refine ⟨List.mem_cons_self l ls, ?_⟩
  intro a ha
  rcases List.mem_cons.mp ha with rfl | ha
  · exact le_refl a
  · exact (List.pairwise_cons.mp hp).1 a ha

/-- C6: the best checkpoint is initialized to `(+∞, none)` by a restart
that does not keep history; it is replaced only when a best-saving step
observes a loss strictly lower than the stored one (a non-best-saving
step, or one with no strict improvement, leaves it untouched); after a
nonempty run of best-saving steps the stored loss equals the minimum of
the observed losses; and for a monotonically non-improving loss
sequence it equals the first loss. -/
theorem best_checkpoint_spec {O : Type} (steps : List (ℚ × O)) :
    (restartBest O).bestLoss = ⊤ ∧
    (restartBest O).bestOuts = none ∧
    (∀ (l : ℚ) (o : O) (st : BestState O),
      ¬((l : WithTop ℚ) < st.bestLoss) → saveBest true l o st = st) ∧
    (∀ (l : ℚ) (o : O) (st : BestState O), saveBest false l o st = st) ∧
    (runBest steps (restartBest O)).bestLoss = (steps.map Prod.fst).minimum ∧
    (∀ (l : ℚ) (o : O) (rest : List (ℚ × O)), steps = (l, o) :: rest →
      List.Chain' (· ≤ ·) (steps.map Prod.fst) →
      (runBest steps (restartBest O)).bestLoss = (l : WithTop ℚ)) := by
  refine ⟨rfl, rfl, ?_, ?_, ?_, ?_⟩
  · intro l o st h
    simp [saveBest, h]
  · intro l o st
    simp [saveBest]
  · rw [runBest_loss]
    exact min_eq_right le_top
  · intro l o rest hsteps hchain
    rw [runBest_loss]
    have htop : (restartBest O).bestLoss ⊓ (List.map Prod.fst steps).minimum =
        (List.map Prod.fst steps).minimum := min_eq_right le_top
    rw [htop]
    subst hsteps
    rw [List.map_cons] at hchain ⊢
    exact minimum_of_chain l (rest.map Prod.fst) hchain

/-- Witness for C6: losses `5, 5, 7` (monotonically non-improving):
the stored checkpoint loss is the first loss `5`, which is also the
minimum. -/
theorem best_checkpoint_spec_witness :
    ([((5 : ℚ), (0 : ℕ)), (5, 1), (7, 2)] =
        ((5 : ℚ), (0 : ℕ)) :: [((5 : ℚ), 1), (7, 2)]) ∧
    List.Chain' (· ≤ ·)
      (([((5 : ℚ), (0 : ℕ)), (5, 1), (7, 2)]).map Prod.fst) ∧
    (runBest [((5 : ℚ), (0 : ℕ)), (5, 1), (7, 2)] (restartBest ℕ)).bestLoss =
      ((5 : ℚ) : WithTop ℚ) :=
  ⟨rfl, by norm_num,
    (best_checkpoint_spec [((5 : ℚ), (0 : ℕ)), (5, 1), (7, 2)]).2.2.2.2.2
      5 0 [((5 : ℚ), 1), (7, 2)] rfl (by norm_num)⟩


theorem listMinQ_mem : ∀ l : List ℚ, l ≠ [] → listMinQ l ∈ l
  | [], h => absurd rfl h
  | [a], _ => by simp [listMinQ]
  | a :: b :: rest, _ => by
    rcases min_cases a (listMinQ (b :: rest)) with ⟨hmin, _⟩ | ⟨hmin, _⟩
    · simp [listMinQ, hmin]
    · have := listMinQ_mem (b :: rest) (by simp)
      simp only [listMinQ, hmin]
      exact List.mem_cons_of_mem a this

theorem listMinQ_le : ∀ l : List ℚ, ∀ x ∈ l, listMinQ l ≤ x
  | [], x, hx => absurd hx (List.not_mem_nil x)
  | [a], x, hx => by
    rcases List.mem_singleton.mp hx with rfl
    simp [listMinQ]
  | a :: b :: rest, x, hx => by
    rcases List.mem_cons.mp hx with rfl | hx
    · exact min_le_left _ _
    · exact le_trans (min_le_right _ _) (listMinQ_le (b :: rest) x hx)

theorem acceptBest_loss {O : Type} [Inhabited O] (buff : List (Cand O))
    (hne : buff ≠ []) :
    (acceptBest buff).loss = listMinQ (buff.map Cand.loss) := by
  have hml : buff.map Cand.loss ≠ [] := by
    simpa using hne
  have hmem : listMinQ (buff.map Cand.loss) ∈ buff.map Cand.loss :=
    listMinQ_mem _ hml
  have hidx : argminIdx (buff.map Cand.loss) < (buff.map Cand.loss).length :=
    List.indexOf_lt_length.mpr hmem
  have hidx' : argminIdx (buff.map Cand.loss) < buff.length := by
    simpa using hidx
  rw [acceptBest, List.getD_eq_get _ _ hidx']
  have hgm : (buff.map Cand.loss).get ⟨argminIdx (buff.map Cand.loss), hidx⟩ =
      listMinQ (buff.map Cand.loss) := List.indexOf_get hidx
  rw [List.get_map] at hgm
  exact hgm

/-- C7: in every outer iteration of semigreedy search that evaluates
`tries ≥ 1` mutated candidates, the accepted candidate
`buff[np.argmin(losses)]` has a scalar loss less than or equal to the
loss of every other candidate evaluated in that iteration. -/
theorem semigreedy_accept_spec {O : Type} [Inhabited O]
    (evalTry : ℕ → Cand O) (tries : ℕ) (h : 1 ≤ tries) :
    ∀ c ∈ semigreedyBuff evalTry tries,
      (acceptBest (semigreedyBuff evalTry tries)).loss ≤ c.loss := by
  intro c hc
  have hne : semigreedyBuff evalTry tries ≠ [] := by
    simp only [semigreedyBuff]
    intro hcontra
    rw [List.map_eq_nil, List.range_eq_nil] at hcontra
    omega
  rw [acceptBest_loss _ hne]
  exact listMinQ_le _ c.loss (List.mem_map_of_mem Cand.loss hc)

/-- Witness for C7 at `tries = 3` with losses `3, 2, 1`: the accepted
candidate (the third) has loss `1 ≤` every buffered loss. -/
theorem semigreedy_accept_spec_witness :
    1 ≤ 3 ∧
    ∀ c ∈ semigreedyBuff witnessEval 3,
      (acceptBest (semigreedyBuff witnessEval 3)).loss ≤ c.loss :=
  ⟨by decide, semigreedy_accept_spec witnessEval 3 (by decide)⟩


theorem sumSq_nonneg (g : List ℝ) : 0 ≤ sumSq g := by
  apply List.sum_nonneg
  intro x hx
  rcases List.mem_map.mp hx with ⟨y, _, rfl⟩
  positivity

theorem gradNorm_nonneg (g : List ℝ) : 0 ≤ gradNorm g :=
  Real.sqrt_nonneg _

theorem sumSq_smul (g : List ℝ) (c : ℝ) :
    sumSq (g.map (fun x => x * c)) = c ^ 2 * sumSq g := by
  induction g with
  | nil => simp [sumSq]
  | cons a as ih =>
    simp only [sumSq, List.map_cons, List.sum_cons] at ih ⊢
    rw [ih]
    ring

theorem gradNorm_smul (g : List ℝ) (c : ℝ) (hc : 0 ≤ c) :
    gradNorm (g.map (fun x => x * c)) = c * gradNorm g := by
  rw [gradNorm, sumSq_smul, Real.sqrt_mul (sq_nonneg c), Real.sqrt_sq_eq_abs,
    abs_of_nonneg hc]
  rfl

/-- C3: the division in the gradient rescaling is guarded by the
additive `1e-7` and is never fatal, including for an exactly zero
gradient (`gn + 1e-7 > 0` always); and for a sequence with nonzero raw
gradient, the rescaled row's norm satisfies
`‖g'‖ * (‖g‖ + ε) = lr_scale * sqrt(len) * ‖g‖`, hence differs from
`lr_scale * sqrt(len)` by at most `lr_scale * sqrt(len) * ε / ‖g‖`,
the tolerance induced by the epsilon. The sequence axis stays separate:
the full gradient update applies this rescaling row by row. -/
theorem grad_normalization_spec (lr : ℝ) (L : ℕ) (gs : List (List ℝ))
    (hlr : 0 ≤ lr) :
    (∀ g : List ℝ, 0 < gradNorm g + epsG) ∧
    (∀ g : List ℝ, gradNorm g ≠ 0 →
      gradNorm (normalizeRow lr L g) * (gradNorm g + epsG) =
        lr * Real.sqrt L * gradNorm g ∧
      |gradNorm (normalizeRow lr L g) - lr * Real.sqrt L| ≤
        lr * Real.sqrt L * epsG / gradNorm g) ∧
    normalizeSeqGrad lr L gs = gs.map (normalizeRow lr L) := by
  have heps : (0 : ℝ) < epsG := by norm_num [epsG]
  have hpos : ∀ g : List ℝ, 0 < gradNorm g + epsG := by
    intro g
    have := gradNorm_nonneg g
    linarith
  refine ⟨hpos, ?_, rfl⟩
  intro g hg
  have hgn : 0 < gradNorm g := lt_of_le_of_ne (gradNorm_nonneg g) (Ne.symm hg)
  have hden : gradNorm g + epsG ≠ 0 := (hpos g).ne'
  have hc : 0 ≤ lr * Real.sqrt L / (gradNorm g + epsG) := by
    have := Real.sqrt_nonneg (L : ℝ)
    positivity
  have hnorm : gradNorm (normalizeRow lr L g) =
      lr * Real.sqrt L / (gradNorm g + epsG) * gradNorm g :=
    gradNorm_smul g _ hc
  constructor
  · rw [hnorm]
    field_simp
  · rw [hnorm]
    have hrw : lr * Real.sqrt L / (gradNorm g + epsG) * gradNorm g -
        lr * Real.sqrt L =
        -(lr * Real.sqrt L * epsG / (gradNorm g + epsG)) := by
      field_simp
      ring
    rw [hrw, abs_neg]
    have hnum : 0 ≤ lr * Real.sqrt L * epsG := by
      have := Real.sqrt_nonneg (L : ℝ)
      positivity
    rw [abs_of_nonneg (by positivity)]
    apply div_le_div_of_nonneg_left hnum hgn
    linarith

/-- Witness for C3 at `lr_scale = 1`, `len = 4`, gradient row `[3, 4]`
(norm `5`). -/
theorem grad_normalization_spec_witness :
    ((0 : ℝ) ≤ 1) ∧ gradNorm [(3 : ℝ), 4] ≠ 0 ∧
    (gradNorm (normalizeRow 1 4 [(3 : ℝ), 4]) * (gradNorm [(3 : ℝ), 4] + epsG) =
      1 * Real.sqrt ((4 : ℕ) : ℝ) * gradNorm [(3 : ℝ), 4] ∧
    |gradNorm (normalizeRow 1 4 [(3 : ℝ), 4]) - 1 * Real.sqrt ((4 : ℕ) : ℝ)| ≤
      1 * Real.sqrt ((4 : ℕ) : ℝ) * epsG / gradNorm [(3 : ℝ), 4]) := by
  have h5 : gradNorm [(3 : ℝ), 4] = 5 := by
    have : sumSq [(3 : ℝ), 4] = 25 := by norm_num [sumSq]
    rw [gradNorm, this, show (25 : ℝ) = 5 ^ 2 by norm_num,
      Real.sqrt_sq (by norm_num : (0 : ℝ) ≤ 5)]
  have hne : gradNorm [(3 : ℝ), 4] ≠ 0 := by rw [h5]; norm_num
  exact ⟨by norm_num, hne,
    (grad_normalization_spec 1 4 [[(3 : ℝ), 4]] (by norm_num)).2.1
      [(3 : ℝ), 4] hne⟩


theorem applyPatch_idem (d : OptRec) (p : Option OptPatch) :
    applyPatch (applyPatch d p) p = applyPatch d p := by
  match p with
  | none => rfl
  | some q =>
    match hq : q.pos with
    | none => simp [applyPatch, hq]
    | some v => simp [applyPatch, hq]

theorem restartDefault_idem {τ : Type} (a : RestartArgs τ) (d : OptRec) :
    restartDefault a (restartDefault a d) = restartDefault a d := by
  by_cases h : a.setDefaults <;> simp [restartDefault, h, applyPatch_idem]

theorem restartOpt_idem {τ : Type} (a : RestartArgs τ) (d cur : OptRec) :
    restartOpt a (restartDefault a d) (restartOpt a d cur) =
      restartOpt a d cur := by
  by_cases h : a.keepHistory
  · simp [restartOpt, h, applyPatch_idem]
  · simp [restartOpt, h, restartDefault_idem, applyPatch_idem]

/-- C9: two consecutive `restart` calls with the same explicit seed and
the same arguments, with no intervening steps, produce identical
initial sequence logits — the second call reproduces the first call's
`params`. -/
theorem restart_deterministic {κ τ : Type} (ops : InitOps κ τ)
    (a : RestartArgs τ) (st : Session κ τ) (s : ℕ) (h : a.seed = some s) :
    (restartModel ops a (restartModel ops a st)).params =
      (restartModel ops a st).params := by
  have hp : ∀ st' : Session κ τ, (restartModel ops a st').params =
      initX ops a st'.wtTensor st'.protocolPartial
        (restartOpt a st'.defaultOpt st'.opt)
        (match a.seed with
         | some s => (s, st'.rng)
         | none => ops.randint st'.rng).1 := fun _ => rfl
  have h1 : (restartModel ops a st).wtTensor = st.wtTensor := rfl
  have h2 : (restartModel ops a st).protocolPartial = st.protocolPartial := rfl
  have h3 : (restartModel ops a st).defaultOpt =
      restartDefault a st.defaultOpt := rfl
  have h4 : (restartModel ops a st).opt =
      restartOpt a st.defaultOpt st.opt := rfl
  rw [hp, hp, h1, h2, h3, h4, restartOpt_idem, h]

/-- Witness for C9: with seed 7 fixed, the second of two consecutive
restarts reproduces the first one's logits. -/
theorem restart_deterministic_witness :
    witArgs.seed = some 7 ∧
    (restartModel witInitOps witArgs (restartModel witInitOps witArgs witSession)).params =
      (restartModel witInitOps witArgs witSession).params :=
  ⟨rfl, restart_deterministic witInitOps witArgs witSession 7 rfl⟩

end ColabDesign


